import Mathlib

/-!
Verification of the selection serialization/restoration subsystem of the
rich-text editor (`src/dom/Selection.ts`, class `SelectionManager`).

The embedding models:
* the DOM subtree under the root element (`DNode`);
* DOM boundary points and `Range` objects with the DOM `setStart`/`setEnd`
  crossing semantics (`Bp`, `Range`);
* `SerializedSelection` snapshots (`src/types/index.ts`);
* `SelectionManager.exportSelection` and `SelectionManager.importSelection`,
  including the explicit-stack tree walk of the latter;
* an exception-aware variant of `importSelection` in which each platform
  primitive call may throw, to reason about the `try`/`catch` boundary.
-/

namespace RichText

/-- A DOM node in the root's subtree: an element with its child nodes
(`nodeType === 1`), a text node carrying its `textContent` (`nodeType === 3`),
or a comment node (`nodeType === 8`), standing for the node types with
`nodeType > 3` that the import walk skips. -/
inductive DNode : Type where
  | element (children : List DNode)
  | text (content : String)
  | comment (content : String)

mutual
/-- Size measure used for termination of the stack-based walk. -/
def nodeSize : DNode → Nat
  | DNode.element cs => 1 + listSize cs
  | DNode.text _ => 1
  | DNode.comment _ => 1

def listSize : List DNode → Nat
  | [] => 0
  | n :: rest => nodeSize n + listSize rest
end

mutual
/-- The `textContent` strings of the text nodes of a subtree, in document
(depth-first pre-order) order. -/
def textStrs : DNode → List String
  | DNode.element cs => textStrsList cs
  | DNode.text s => [s]
  | DNode.comment _ => []

def textStrsList : List DNode → List String
  | [] => []
  | n :: rest => textStrs n ++ textStrsList rest
end

/-- Sum of the lengths of a list of strings. -/
def sumLens : List String → Nat
  | [] => 0
  | s :: rest => s.length + sumLens rest

/-- Total visible text length of the root's subtree. -/
def totalTextLength (root : DNode) : Nat := sumLens (textStrs root)

/-- A DOM boundary point, as created by the selection code: the position
`(root, 0)` before the root's first child, the position
`(root, root.childNodes.length)` after its last child, or a position inside
a text node.  Text nodes are identified by their index in document order
(the index into `textStrs root`), which determines them uniquely. -/
inductive Bp : Type where
  | rootStart
  | rootEnd
  | inText (idx : Nat) (off : Nat)
deriving DecidableEq

/-- Strict document order on boundary points: `(root, 0)` precedes every
position inside the subtree, `(root, childCount)` follows every one, and
positions inside text nodes are ordered by document order of the node and
then by offset. -/
def bpLt : Bp → Bp → Bool
  | Bp.rootStart, Bp.rootStart => false
  | Bp.rootStart, Bp.rootEnd => true
  | Bp.rootStart, Bp.inText _ _ => true
  | Bp.rootEnd, Bp.rootStart => false
  | Bp.rootEnd, Bp.rootEnd => false
  | Bp.rootEnd, Bp.inText _ _ => false
  | Bp.inText _ _, Bp.rootStart => false
  | Bp.inText _ _, Bp.rootEnd => true
  | Bp.inText i o, Bp.inText j p => decide (i < j) || (decide (i = j) && decide (o < p))

/-- A DOM `Range`: a start and an end boundary point. -/
structure Range where
  s : Bp
  e : Bp
deriving DecidableEq

/-- DOM `Range.prototype.setStart`: the start boundary is set; if the new
start is after the current end, the end collapses onto it. -/
def rangeSetStart (r : Range) (b : Bp) : Range :=
  { s := b, e := if bpLt r.e b then b else r.e }

/-- DOM `Range.prototype.setEnd`: the end boundary is set; if the new end is
before the current start, the start collapses onto it. -/
def rangeSetEnd (r : Range) (b : Bp) : Range :=
  { s := if bpLt b r.s then b else r.s, e := b }

/-- DOM `Range.prototype.collapsed`: the two boundary points coincide. -/
def rangeCollapsed (r : Range) : Bool := r.s == r.e

/-- The result of `range.selectNodeContents(root)`: start before the root's
first child, end after its last child. -/
def selectNodeContentsRoot : Range := { s := Bp.rootStart, e := Bp.rootEnd }

/-- Global character offset of a boundary point, given the document-order
text contents of the root: the length of all text between the start of the
root's content and the boundary point. -/
def bpGlobal (texts : List String) : Bp → Nat
  | Bp.rootStart => 0
  | Bp.rootEnd => sumLens texts
  | Bp.inText k off => sumLens (texts.take k) + off

/-- Length of `range.toString()`: the platform serializes exactly the text
content lying between the two boundary points. -/
def rangeStringLength (texts : List String) (r : Range) : Nat :=
  bpGlobal texts r.e - bpGlobal texts r.s

/-- The boundary point references a real node position: for a text-node
position, the node index exists and the offset is at most the node's text
length. -/
def bpValid (texts : List String) : Bp → Bool
  | Bp.rootStart => true
  | Bp.rootEnd => true
  | Bp.inText k off => decide (k < texts.length) && decide (off ≤ (texts.getD k "").length)

/-- A well-formed live range within the root: both boundary points are valid
and the start does not follow the end (the DOM `Range` invariant). -/
def rangeValid (texts : List String) (r : Range) : Bool :=
  bpValid texts r.s && bpValid texts r.e && !(bpLt r.e r.s)

/-- The `SerializedSelection` interface (src/types/index.ts): character offsets plus the
optional, non-authoritative container hints and the collapsed flag. -/
structure SerializedSelection where
  start : Nat
  «end» : Nat
  startContainer : Option Bp
  endContainer : Option Bp
  collapsed : Bool

/-- The live selection owned by the platform: its list of ranges
(`rangeCount` is its length, `getRangeAt(0)` its head). -/
structure Sel where
  ranges : List Range
deriving DecidableEq

/-- State of the import walk's loop:
the range under construction, `charIndex`, `foundStart` and `stop`.
`tIdx` is the model's identity for the next text node to be visited — its
index in document order — so that `Bp.inText` boundary points can name the
node the source code passes to `setStart`/`setEnd`. -/
structure WalkSt where
  range : Range
  charIndex : Nat
  foundStart : Bool
  stop : Bool
  tIdx : Nat

/-- The source declares `const foundEnd = false`; it is a `const` and never
reassigned anywhere in `importSelection`. -/
def foundEnd : Bool := false

/-- The body of the text-node branch of the walk
(`if (node.nodeType === Node.TEXT_NODE && !foundEnd) { ... }`):
compute `nextCharIndex`, maybe set the range start, maybe set the range end
and stop, then advance `charIndex`. -/
def textStep (ss : SerializedSelection) (content : String) (st : WalkSt) : WalkSt :=
  let nextCharIndex := st.charIndex + content.length
  let st1 :=
    if st.foundStart = false ∧ st.charIndex ≤ ss.start ∧ ss.start ≤ nextCharIndex then
      { st with range := rangeSetStart st.range (Bp.inText st.tIdx (ss.start - st.charIndex)),
                foundStart := true }
    else st
  let st2 :=
    if st1.foundStart = true ∧ st.charIndex ≤ ss.«end» ∧ ss.«end» ≤ nextCharIndex then
      { st1 with range := rangeSetEnd st1.range (Bp.inText st.tIdx (ss.«end» - st.charIndex)),
                 stop := true }
    else st1
  { st2 with charIndex := nextCharIndex, tIdx := st.tIdx + 1 }

/-- The `while (!stop && node)` loop of `importSelection`.  The stack is the
source's `nodeStack` with its top at the head of the list; the source pushes
an element's children in reverse order and pops from the back, which makes
the children come off the stack in document order, i.e. the element case
continues with `children ++ rest`.  Comment nodes (`nodeType > 3`) are
popped and skipped without any other effect. -/
def walk (ss : SerializedSelection) (stack : List DNode) (st : WalkSt) : WalkSt :=
  if st.stop then st
  else
    match stack with
    | [] => st
    | DNode.comment _ :: rest => walk ss rest st
    | DNode.text content :: rest =>
        walk ss rest (if foundEnd = false then textStep ss content st else st)
    | DNode.element cs :: rest => walk ss (cs ++ rest) st
termination_by listSize stack
decreasing_by
  all_goals
    have h : ∀ (a b : List DNode), listSize (a ++ b) = listSize a + listSize b := by
      intro a b
      induction a with
      | nil => simp [listSize]
      | cons n ns ih => simp [listSize, ih]; omega
    simp [listSize, nodeSize, h]

/-- The walk's starting state: `document.createRange()`, then
`range.setStart(root, 0)` and `range.collapse(true)` produce the collapsed
range at `(root, 0)`; `charIndex = 0`, `foundStart = false`, `stop = false`. -/
def initSt : WalkSt :=
  { range := { s := Bp.rootStart, e := Bp.rootStart }, charIndex := 0,
    foundStart := false, stop := false, tIdx := 0 }

/-- The whole traversal of `importSelection` starting from the root
(`node = root`, empty `nodeStack`). -/
def importWalk (root : DNode) (ss : SerializedSelection) : WalkSt :=
  walk ss [root] initSt

/-- Model of `SelectionManager.selectRange`: if `getSelection()` is `null` do nothing;
otherwise `removeAllRanges()` then `addRange(range)`. -/
def selectRange (sel : Option Sel) (r : Range) : Option Sel :=
  match sel with
  | none => none
  | some _ => some { ranges := [r] }

/-- Model of `SelectionManager.importSelection(root, selectionState)`.  Returns the
boolean result together with the live selection state after the call.
With both arguments present and no exception, the source unconditionally
ends with `this.selectRange(range); return true`. -/
def importSelection (root : Option DNode) (selectionState : Option SerializedSelection)
    (sel : Option Sel) : Bool × Option Sel :=
  match selectionState, root with
  | none, _ => (false, sel)
  | _, none => (false, sel)
  | some ss, some rootN => (true, selectRange sel (importWalk rootN ss).range)

/-- Model of `SelectionManager.exportSelection(root)`: it is `null` without a root, a
selection, or a range; otherwise clone the first range, `selectNodeContents
(root)`, `setEnd` at the real range's start, and measure `toString().length`
to obtain `start`; `end` adds the real range's own `toString().length`. -/
def exportSelection (root : Option DNode) (sel : Option Sel) : Option SerializedSelection :=
  match root with
  | none => none
  | some rootN =>
    match sel with
    | none => none
    | some selv =>
      match selv.ranges with
      | [] => none
      | range :: _ =>
        let texts := textStrs rootN
        let preSelectionRange := rangeSetEnd selectNodeContentsRoot range.s
        let start := rangeStringLength texts preSelectionRange
        some { start := start,
               «end» := start + rangeStringLength texts range,
               startContainer := some range.s,
               endContainer := some range.e,
               collapsed := rangeCollapsed range }

/-- The sequence of element and text nodes the import walk processes, in
order: exactly the same recursion as `walk`, recording each node that is not
skipped by the `nodeType > 3` test.  Comment nodes are popped and dropped. -/
def walkTrace (ss : SerializedSelection) (stack : List DNode) (st : WalkSt) : List DNode :=
  if st.stop then []
  else
    match stack with
    | [] => []
    | DNode.comment _ :: rest => walkTrace ss rest st
    | DNode.text content :: rest =>
        DNode.text content ::
          walkTrace ss rest (if foundEnd = false then textStep ss content st else st)
    | DNode.element cs :: rest => DNode.element cs :: walkTrace ss (cs ++ rest) st
termination_by listSize stack
decreasing_by
  all_goals
    have h : ∀ (a b : List DNode), listSize (a ++ b) = listSize a + listSize b := by
      intro a b
      induction a with
      | nil => simp [listSize]
      | cons n ns ih => simp [listSize, ih]; omega
    simp [listSize, nodeSize, h]

mutual
/-- The element and text nodes of a subtree in depth-first pre-order document
order, each element preceding its children; comment nodes excluded. -/
def preorderNodes : DNode → List DNode
  | DNode.element cs => DNode.element cs :: preorderList cs
  | DNode.text s => [DNode.text s]
  | DNode.comment _ => []

/-- Pre-order node sequence of a forest, left to right. -/
def preorderList : List DNode → List DNode
  | [] => []
  | n :: rest => preorderNodes n ++ preorderList rest
end

/-- Total text length contributed by the text nodes of a visited-node
sequence; element entries contribute zero (their text lives in their
children, which appear separately in the sequence). -/
def traceTextLen : List DNode → Nat
  | [] => 0
  | DNode.text s :: rest => s.length + traceTextLen rest
  | _ :: rest => traceTextLen rest

/-- The walk's state machine run over the flat document-order sequence of
text contents: the tree structure only determines which text nodes are seen
and in which order, so `walk` factors through this function. -/
def walkFlat (ss : SerializedSelection) (texts : List String) (st : WalkSt) : WalkSt :=
  if st.stop then st
  else
    match texts with
    | [] => st
    | content :: rest => walkFlat ss rest (textStep ss content st)

/-- The platform calls `importSelection` makes whose failure the
`try`/`catch` must absorb: creating/initializing the cursor range, the two
range mutations inside the walk, and the two selection mutations inside
`selectRange`. -/
inductive PSite : Type where
  | initRange
  | walkSetStart
  | walkSetEnd
  | removeAllRanges
  | addRange
deriving DecidableEq

/-- Failure environment: which platform calls throw when executed. -/
structure ExcEnv where
  fails : PSite → Bool

/-- Exception-aware text-node step: `range.setStart` / `range.setEnd` may
throw; otherwise identical to `textStep`. -/
def textStepE (env : ExcEnv) (ss : SerializedSelection) (content : String) (st : WalkSt) :
    Except Unit WalkSt :=
  let nextCharIndex := st.charIndex + content.length
  let startRes : Except Unit WalkSt :=
    if st.foundStart = false ∧ st.charIndex ≤ ss.start ∧ ss.start ≤ nextCharIndex then
      if env.fails PSite.walkSetStart then Except.error ()
      else Except.ok
        { st with range := rangeSetStart st.range (Bp.inText st.tIdx (ss.start - st.charIndex)),
                  foundStart := true }
    else Except.ok st
  match startRes with
  | Except.error u => Except.error u
  | Except.ok st1 =>
    if st1.foundStart = true ∧ st.charIndex ≤ ss.«end» ∧ ss.«end» ≤ nextCharIndex then
      if env.fails PSite.walkSetEnd then Except.error ()
      else Except.ok
        { st1 with range := rangeSetEnd st1.range (Bp.inText st.tIdx (ss.«end» - st.charIndex)),
                   stop := true, charIndex := nextCharIndex, tIdx := st.tIdx + 1 }
    else Except.ok { st1 with charIndex := nextCharIndex, tIdx := st.tIdx + 1 }

/-- Exception-aware walk: identical traversal to `walk`, with the text step
able to throw. -/
def walkE (env : ExcEnv) (ss : SerializedSelection) (stack : List DNode) (st : WalkSt) :
    Except Unit WalkSt :=
  if st.stop then Except.ok st
  else
    match stack with
    | [] => Except.ok st
    | DNode.comment _ :: rest => walkE env ss rest st
    | DNode.text content :: rest =>
        match (if foundEnd = false then textStepE env ss content st else Except.ok st) with
        | Except.error u => Except.error u
        | Except.ok st1 => walkE env ss rest st1
    | DNode.element cs :: rest => walkE env ss (cs ++ rest) st
termination_by listSize stack
decreasing_by
  all_goals
    have h : ∀ (a b : List DNode), listSize (a ++ b) = listSize a + listSize b := by
      intro a b
      induction a with
      | nil => simp [listSize]
      | cons n ns ih => simp [listSize, ih]; omega
    simp [listSize, nodeSize, h]

/-- Variant of `importSelection` with the platform calls of `env` allowed to throw.
Every exception is absorbed by the `try`/`catch` and turns into `false`; the
resulting live selection reflects exactly the mutations performed before the
throw: `selectRange` first executes `removeAllRanges()`, so a throwing
`addRange(range)` leaves the selection empty. -/
def importSelectionExc (env : ExcEnv) (root : Option DNode)
    (selectionState : Option SerializedSelection) (sel : Option Sel) : Bool × Option Sel :=
  match selectionState, root with
  | none, _ => (false, sel)
  | _, none => (false, sel)
  | some ss, some rootN =>
    if env.fails PSite.initRange then (false, sel)
    else
      match walkE env ss [rootN] initSt with
      | Except.error _ => (false, sel)
      | Except.ok st =>
        match sel with
        | none => (true, none)
        | some _ =>
          if env.fails PSite.removeAllRanges then (false, sel)
          else if env.fails PSite.addRange then (false, some { ranges := [] })
          else (true, some { ranges := [st.range] })

/-- Concrete root used by witnesses and counterexamples:
`<root>Hello <!--x--><b>World</b></root>`, two text nodes of lengths 6 and 5,
total text "Hello World" (11 characters), with an interposed comment node. -/
def root11 : DNode :=
  DNode.element [DNode.text "Hello ", DNode.comment "x", DNode.element [DNode.text "World"]]

/-- A live range spanning "lo Wor": offset 3 in the first text node to
offset 3 in the second. -/
def selLive : Sel := { ranges := [{ s := Bp.inText 0 3, e := Bp.inText 1 3 }] }

/-- An arbitrary pre-existing live selection. -/
def selAny : Sel := { ranges := [{ s := Bp.rootStart, e := Bp.rootEnd }] }

/-- A zero-width live range whose boundary points differ: end of the first
text node to start of the second. -/
def selAdjacent : Sel := { ranges := [{ s := Bp.inText 0 6, e := Bp.inText 1 0 }] }

/-- Snapshot whose `end` exceeds the total text length (content shrank). -/
def ssOverlong : SerializedSelection :=
  { start := 0, «end» := 999, startContainer := none, endContainer := none, collapsed := false }

/-- Snapshot whose `start` already exceeds the total text length. -/
def ssBeyond : SerializedSelection :=
  { start := 999, «end» := 1000, startContainer := none, endContainer := none, collapsed := false }

/-- Ordinary snapshot selecting "Hello". -/
def ssHello : SerializedSelection :=
  { start := 0, «end» := 5, startContainer := none, endContainer := none, collapsed := false }

/-- Environment in which only `selection.addRange` throws. -/
def envAddRangeFails : ExcEnv := { fails := fun site => site == PSite.addRange }

/-- A collapsed snapshot at offset 5 (fields: start, end, containers, collapsed). -/
def ssK5 : SerializedSelection := ⟨5, 5, none, none, true⟩

/-- A walk state in the middle of a traversal: counter 5, next text node
index 2, start not yet found. -/
def stAt5 : WalkSt := ⟨⟨Bp.rootStart, Bp.rootStart⟩, 5, false, false, 2⟩

/-- Snapshot (3,9) without hints. -/
def ss39plain : SerializedSelection := ⟨3, 9, none, none, false⟩

/-- Snapshot (3,9) with stale hints and a wrong collapsed flag. -/
def ss39hints : SerializedSelection := ⟨3, 9, some Bp.rootStart, some Bp.rootEnd, true⟩

/-! ### Basic facts about sizes, text sequences and boundary points -/

theorem sumLens_append (a b : List String) : sumLens (a ++ b) = sumLens a + sumLens b := by
  induction a with
  | nil => simp [sumLens]
  | cons s rest ih => simp [sumLens, ih]; omega

theorem textStrsList_append (a b : List DNode) :
    textStrsList (a ++ b) = textStrsList a ++ textStrsList b := by
  induction a with
  | nil => simp [textStrsList]
  | cons n rest ih => simp [textStrsList, ih]

theorem textStrsList_singleton (n : DNode) : textStrsList [n] = textStrs n := by
  simp [textStrsList]

theorem preorderList_append (a b : List DNode) :
    preorderList (a ++ b) = preorderList a ++ preorderList b := by
  induction a with
  | nil => simp [preorderList]
  | cons n rest ih => simp [preorderList, ih]

theorem preorderList_singleton (n : DNode) : preorderList [n] = preorderNodes n := by
  simp [preorderList]

theorem sumLens_take_le (l : List String) : ∀ i j : Nat, i ≤ j →
    sumLens (l.take i) ≤ sumLens (l.take j) := by
  induction l with
  | nil => intro i j _; simp
  | cons s rest ih =>
    intro i j hij
    match i, j with
    | 0, j => simp [sumLens]
    | i + 1, j + 1 =>
      simp only [List.take_succ_cons, sumLens]
      have := ih i j (by omega)
      omega

theorem sumLens_take_succ (l : List String) : ∀ i : Nat, i < l.length →
    sumLens (l.take (i + 1)) = sumLens (l.take i) + (l.getD i "").length := by
  induction l with
  | nil => intro i h; simp at h
  | cons s rest ih =>
    intro i h
    match i with
    | 0 => simp [sumLens]
    | i + 1 =>
      simp only [List.take_succ_cons, sumLens, List.getD_cons_succ]
      have := ih i (by simp at h; omega)
      omega

theorem sumLens_take_le_total (l : List String) (i : Nat) : sumLens (l.take i) ≤ sumLens l := by
  rcases Nat.le_total i l.length with h | h
  · have := sumLens_take_le l i l.length h
    simpa using this
  · rw [List.take_of_length_le h]

theorem bpLt_b_rootStart (b : Bp) : bpLt b Bp.rootStart = false := by
  cases b <;> rfl

theorem bpLt_rootStart_inText (k o : Nat) : bpLt Bp.rootStart (Bp.inText k o) = true := rfl

theorem bpLt_irrefl (b : Bp) : bpLt b b = false := by
  cases b <;> simp [bpLt]

/-- Document order agrees with global character offsets on valid boundary
points (weakly: order of the boundary points implies order of offsets). -/
theorem bpGlobal_mono (texts : List String) (a b : Bp)
    (ha : bpValid texts a = true) (hb : bpValid texts b = true)
    (hord : bpLt b a = false) : bpGlobal texts a ≤ bpGlobal texts b := by
  cases a with
  | rootStart => simp [bpGlobal]
  | rootEnd =>
    cases b with
    | rootStart => simp [bpLt] at hord
    | rootEnd => exact le_refl _
    | inText j p => simp [bpLt] at hord
  | inText i o =>
    cases b with
    | rootStart => simp [bpLt] at hord
    | rootEnd =>
      simp only [bpValid, Bool.and_eq_true, decide_eq_true_eq] at ha
      calc sumLens (texts.take i) + o
          ≤ sumLens (texts.take i) + (texts.getD i "").length := by omega
        _ = sumLens (texts.take (i + 1)) := (sumLens_take_succ texts i ha.1).symm
        _ ≤ sumLens texts := sumLens_take_le_total texts (i + 1)
    | inText j p =>
      simp only [bpLt, Bool.or_eq_false_iff, Bool.and_eq_false_iff, decide_eq_false_iff_not] at hord
      simp only [bpValid, Bool.and_eq_true, decide_eq_true_eq] at ha hb
      simp only [bpGlobal]
      rcases hord with ⟨hji, hcase⟩
      by_cases hij : i = j
      · subst hij
        rcases hcase with h | h
        · omega
        · have : ¬ p < o := by simpa using h
          omega
      · have hilt : i < j := by omega
        calc sumLens (texts.take i) + o
            ≤ sumLens (texts.take i) + (texts.getD i "").length := by omega
          _ = sumLens (texts.take (i + 1)) := (sumLens_take_succ texts i ha.1).symm
          _ ≤ sumLens (texts.take j) := sumLens_take_le texts (i + 1) j (by omega)
          _ ≤ sumLens (texts.take j) + p := by omega

theorem bpGlobal_le_total (texts : List String) (b : Bp)
    (hb : bpValid texts b = true) : bpGlobal texts b ≤ sumLens texts := by
  cases b with
  | rootStart => simp [bpGlobal]
  | rootEnd => simp [bpGlobal]
  | inText k o =>
    simp only [bpValid, Bool.and_eq_true, decide_eq_true_eq] at hb
    calc sumLens (texts.take k) + o
        ≤ sumLens (texts.take k) + (texts.getD k "").length := by omega
      _ = sumLens (texts.take (k + 1)) := (sumLens_take_succ texts k hb.1).symm
      _ ≤ sumLens texts := sumLens_take_le_total texts (k + 1)

/-! ### Case analysis of a single text-node step -/

theorem textStep_skip (ss : SerializedSelection) (content : String) (st : WalkSt)
    (hf : st.foundStart = false)
    (hs : ¬ (st.charIndex ≤ ss.start ∧ ss.start ≤ st.charIndex + content.length)) :
    textStep ss content st =
      { st with charIndex := st.charIndex + content.length, tIdx := st.tIdx + 1 } := by
  simp [textStep, hf, hs]

theorem textStep_start_end (ss : SerializedSelection) (content : String) (st : WalkSt)
    (hf : st.foundStart = false)
    (hs : st.charIndex ≤ ss.start ∧ ss.start ≤ st.charIndex + content.length)
    (he : st.charIndex ≤ ss.«end» ∧ ss.«end» ≤ st.charIndex + content.length) :
    textStep ss content st =
      { st with
        range := rangeSetEnd
          (rangeSetStart st.range (Bp.inText st.tIdx (ss.start - st.charIndex)))
          (Bp.inText st.tIdx (ss.«end» - st.charIndex)),
        foundStart := true, stop := true,
        charIndex := st.charIndex + content.length, tIdx := st.tIdx + 1 } := by
  simp [textStep, hf, hs, he]

theorem textStep_start_only (ss : SerializedSelection) (content : String) (st : WalkSt)
    (hf : st.foundStart = false)
    (hs : st.charIndex ≤ ss.start ∧ ss.start ≤ st.charIndex + content.length)
    (he : ¬ (st.charIndex ≤ ss.«end» ∧ ss.«end» ≤ st.charIndex + content.length)) :
    textStep ss content st =
      { st with
        range := rangeSetStart st.range (Bp.inText st.tIdx (ss.start - st.charIndex)),
        foundStart := true,
        charIndex := st.charIndex + content.length, tIdx := st.tIdx + 1 } := by
  simp [textStep, hf, hs, he]

theorem textStep_found_end (ss : SerializedSelection) (content : String) (st : WalkSt)
    (hf : st.foundStart = true)
    (he : st.charIndex ≤ ss.«end» ∧ ss.«end» ≤ st.charIndex + content.length) :
    textStep ss content st =
      { st with
        range := rangeSetEnd st.range (Bp.inText st.tIdx (ss.«end» - st.charIndex)),
        stop := true,
        charIndex := st.charIndex + content.length, tIdx := st.tIdx + 1 } := by
  simp [textStep, hf, he]

theorem textStep_found_skip (ss : SerializedSelection) (content : String) (st : WalkSt)
    (hf : st.foundStart = true)
    (he : ¬ (st.charIndex ≤ ss.«end» ∧ ss.«end» ≤ st.charIndex + content.length)) :
    textStep ss content st =
      { st with charIndex := st.charIndex + content.length, tIdx := st.tIdx + 1 } := by
  simp [textStep, hf, he]

/-! ### The walk over the flat text sequence -/

theorem walkFlat_stop (ss : SerializedSelection) (texts : List String) (st : WalkSt)
    (h : st.stop = true) : walkFlat ss texts st = st := by
  cases texts <;> simp [walkFlat, h]

theorem walkFlat_nil (ss : SerializedSelection) (st : WalkSt) : walkFlat ss [] st = st := by
  cases h : st.stop <;> simp [walkFlat, h]

theorem walkFlat_cons (ss : SerializedSelection) (content : String) (rest : List String)
    (st : WalkSt) (h : st.stop = false) :
    walkFlat ss (content :: rest) st = walkFlat ss rest (textStep ss content st) := by
  simp [walkFlat, h]

/-- End-search phase, target beyond the remaining text: the walk advances to
the end of the sequence leaving range, flags untouched. -/
theorem walkFlat_endPhase_notFound (ss : SerializedSelection) :
    ∀ (texts : List String) (st : WalkSt),
      st.stop = false → st.foundStart = true →
      st.charIndex + sumLens texts < ss.«end» →
      (walkFlat ss texts st).range = st.range ∧
      (walkFlat ss texts st).foundStart = true ∧
      (walkFlat ss texts st).stop = false ∧
      (walkFlat ss texts st).charIndex = st.charIndex + sumLens texts ∧
      (walkFlat ss texts st).tIdx = st.tIdx + texts.length := by
  intro texts
  induction texts with
  | nil =>
    intro st h1 h2 _
    simp [walkFlat_nil, sumLens, h1, h2]
  | cons content rest ih =>
    intro st h1 h2 h3
    simp only [sumLens] at h3
    rw [walkFlat_cons ss content rest st h1]
    rw [textStep_found_skip ss content st h2 (by omega)]
    have := ih { st with charIndex := st.charIndex + content.length, tIdx := st.tIdx + 1 }
      (by simp [h1]) (by simp [h2]) (by simp; omega)
    simp only at this
    refine ⟨this.1, this.2.1, this.2.2.1, ?_, ?_⟩
    · rw [this.2.2.2.1]; simp [sumLens]; omega
    · rw [this.2.2.2.2]; simp; omega

/-- End-search phase, target within the remaining text: the walk stops at
the first text node whose span contains the target and sets the range end
there. -/
theorem walkFlat_endPhase_found (ss : SerializedSelection) :
    ∀ (texts : List String) (st : WalkSt),
      st.stop = false → st.foundStart = true →
      st.charIndex ≤ ss.«end» → ss.«end» ≤ st.charIndex + sumLens texts →
      texts ≠ [] →
      ∃ i off,
        i < texts.length ∧
        off ≤ (texts.getD i "").length ∧
        st.charIndex + sumLens (texts.take i) + off = ss.«end» ∧
        (walkFlat ss texts st).range = rangeSetEnd st.range (Bp.inText (st.tIdx + i) off) ∧
        (walkFlat ss texts st).stop = true := by
  intro texts
  induction texts with
  | nil => intro st _ _ _ _ h5; exact absurd rfl h5
  | cons content rest ih =>
    intro st h1 h2 h3 h4 _
    rw [walkFlat_cons ss content rest st h1]
    by_cases hend : ss.«end» ≤ st.charIndex + content.length
    · rw [textStep_found_end ss content st h2 ⟨h3, hend⟩]
      rw [walkFlat_stop _ _ _ (by simp)]
      refine ⟨0, ss.«end» - st.charIndex, by simp, ?_, ?_, by simp, by simp⟩
      · simp only [List.getD_cons_zero]; omega
      · simp [sumLens]; omega
    · have hlt : st.charIndex + content.length < ss.«end» := by omega
      rw [textStep_found_skip ss content st h2 (by omega)]
      simp only [sumLens] at h4
      obtain ⟨i, off, hi, hoff, heq, hrange, hstop⟩ :=
        ih { st with charIndex := st.charIndex + content.length, tIdx := st.tIdx + 1 }
          (by simp [h1]) (by simp [h2]) (by simp; omega) (by simp; omega)
          (by intro hnil; subst hnil; simp [sumLens] at h4; omega)
      simp only at hi hoff heq hrange hstop
      refine ⟨i + 1, off, by simp; omega, by simpa using hoff, ?_, ?_, hstop⟩
      · simp only [List.take_succ_cons, sumLens] at heq ⊢; omega
      · have harith : st.tIdx + 1 + i = st.tIdx + (i + 1) := by omega
        rw [harith] at hrange
        exact hrange

/-- Start-search phase: with the start target within the remaining text, the
walk sets the range start at the first text node whose span contains it;
thereafter it either also finds and sets the end (stopping), or runs off the
end of the content with only the start applied. -/
theorem walkFlat_startPhase (ss : SerializedSelection) :
    ∀ (texts : List String) (st : WalkSt),
      st.stop = false → st.foundStart = false →
      st.charIndex ≤ ss.start → ss.start ≤ ss.«end» →
      ss.start ≤ st.charIndex + sumLens texts →
      texts ≠ [] →
      ∃ i offS,
        i < texts.length ∧
        offS ≤ (texts.getD i "").length ∧
        st.charIndex + sumLens (texts.take i) + offS = ss.start ∧
        ((ss.«end» ≤ st.charIndex + sumLens texts →
           ∃ j offE,
             j < texts.length ∧ i ≤ j ∧
             offE ≤ (texts.getD j "").length ∧
             st.charIndex + sumLens (texts.take j) + offE = ss.«end» ∧
             (walkFlat ss texts st).range =
               rangeSetEnd (rangeSetStart st.range (Bp.inText (st.tIdx + i) offS))
                 (Bp.inText (st.tIdx + j) offE) ∧
             (walkFlat ss texts st).stop = true ∧
             (ss.start = ss.«end» → j = i ∧ offE = offS)) ∧
         (st.charIndex + sumLens texts < ss.«end» →
           (walkFlat ss texts st).range =
             rangeSetStart st.range (Bp.inText (st.tIdx + i) offS) ∧
           (walkFlat ss texts st).stop = false ∧
           (walkFlat ss texts st).foundStart = true)) := by
  intro texts
  induction texts with
  | nil => intro st _ _ _ _ _ h6; exact absurd rfl h6
  | cons content rest ih =>
    intro st h1 h2 h3 h4 h5 _
    simp only [sumLens] at h5
    rw [walkFlat_cons ss content rest st h1]
    by_cases hsHere : ss.start ≤ st.charIndex + content.length
    · -- the start boundary lands in this node
      refine ⟨0, ss.start - st.charIndex, by simp, ?_, ?_, ?_, ?_⟩
      · simp only [List.getD_cons_zero]; omega
      · simp [sumLens]; omega
      · -- end within the whole remaining text
        intro hE
        by_cases heHere : ss.«end» ≤ st.charIndex + content.length
        · rw [textStep_start_end ss content st h2 ⟨h3, hsHere⟩ ⟨by omega, heHere⟩]
          rw [walkFlat_stop _ _ _ (by simp)]
          refine ⟨0, ss.«end» - st.charIndex, by simp, le_refl 0, ?_, ?_, by simp, by simp,
            fun hse => ⟨rfl, by omega⟩⟩
          · simp only [List.getD_cons_zero]; omega
          · simp [sumLens]; omega
        · rw [textStep_start_only ss content st h2 ⟨h3, hsHere⟩ (by omega)]
          simp only [sumLens] at hE
          obtain ⟨i', off', hi', hoff', heq', hrange', hstop'⟩ :=
            walkFlat_endPhase_found ss rest
              { st with
                range := rangeSetStart st.range (Bp.inText st.tIdx (ss.start - st.charIndex)),
                foundStart := true,
                charIndex := st.charIndex + content.length, tIdx := st.tIdx + 1 }
              (by simp [h1]) (by simp) (by simp; omega) (by simp; omega)
              (by intro hnil; subst hnil; simp [sumLens] at hE; omega)
          simp only at hi' hoff' heq' hrange' hstop'
          refine ⟨i' + 1, off', by simp; omega, by omega, by simpa using hoff', ?_, ?_, hstop',
            fun hse => by omega⟩
          · simp only [List.take_succ_cons, sumLens] at heq' ⊢; omega
          · have harith : st.tIdx + 1 + i' = st.tIdx + (i' + 1) := by omega
            rw [harith] at hrange'
            simpa using hrange'
      · -- end beyond the whole remaining text
        intro hlt
        simp only [sumLens] at hlt
        have heHere : ¬ (st.charIndex ≤ ss.«end» ∧ ss.«end» ≤ st.charIndex + content.length) := by
          omega
        rw [textStep_start_only ss content st h2 ⟨h3, hsHere⟩ heHere]
        have := walkFlat_endPhase_notFound ss rest
          { st with
            range := rangeSetStart st.range (Bp.inText st.tIdx (ss.start - st.charIndex)),
            foundStart := true,
            charIndex := st.charIndex + content.length, tIdx := st.tIdx + 1 }
          (by simp [h1]) (by simp) (by simp; omega)
        simp only at this
        exact ⟨by simpa using this.1, this.2.2.1, this.2.1⟩
    · -- the start boundary is beyond this node: skip it
      rw [textStep_skip ss content st h2 (by omega)]
      obtain ⟨i', offS, hi', hoffS, heqS, himps⟩ :=
        ih { st with charIndex := st.charIndex + content.length, tIdx := st.tIdx + 1 }
          (by simp [h1]) (by simp [h2]) (by simp; omega) h4 (by simp; omega)
          (by intro hnil; subst hnil; simp [sumLens] at h5; omega)
      simp only at hi' hoffS heqS himps
      refine ⟨i' + 1, offS, by simp; omega, by simpa using hoffS, ?_, ?_, ?_⟩
      · simp only [List.take_succ_cons, sumLens] at heqS ⊢; omega
      · intro hE
        simp only [sumLens] at hE
        obtain ⟨j', offE, hj', hij', hoffE, heqE, hrange, hstop, hcoll⟩ :=
          himps.1 (by omega)
        refine ⟨j' + 1, offE, by simp; omega, by omega, by simpa using hoffE, ?_, ?_, hstop,
          fun hse => by
            obtain ⟨hji, hoe⟩ := hcoll hse
            exact ⟨by omega, hoe⟩⟩
        · simp only [List.take_succ_cons, sumLens] at heqE ⊢; omega
        · have ha1 : st.tIdx + 1 + i' = st.tIdx + (i' + 1) := by omega
          have ha2 : st.tIdx + 1 + j' = st.tIdx + (j' + 1) := by omega
          rw [ha1, ha2] at hrange
          simpa using hrange
      · intro hlt
        simp only [sumLens] at hlt
        obtain ⟨hrange, hstop, hfound⟩ := himps.2 (by omega)
        have ha1 : st.tIdx + 1 + i' = st.tIdx + (i' + 1) := by omega
        rw [ha1] at hrange
        exact ⟨by simpa using hrange, hstop, hfound⟩

/-! ### The tree walk factors through the flat text sequence -/

theorem walk_eq_walkFlat (ss : SerializedSelection) :
    ∀ (stack : List DNode) (st : WalkSt),
      walk ss stack st = walkFlat ss (textStrsList stack) st := by
  intro stack st
  induction stack, st using walk.induct ss with
  | case1 stack st hstop =>
    rw [walk.eq_def, walkFlat_stop ss _ st hstop]
    simp [hstop]
  | case2 st hstop =>
    rw [walk.eq_def]
    simp [hstop, textStrsList, walkFlat_nil]
  | case3 st hstop content rest ih =>
    rw [walk.eq_def]
    simp only [hstop, if_false, Bool.not_eq_true, textStrsList, textStrs, List.nil_append]
    simpa using ih
  | case4 st hstop content rest ih =>
    rw [walk.eq_def]
    have hb : st.stop = false := by simpa using hstop
    simp only [hstop, Bool.not_eq_true, textStrsList, textStrs, List.singleton_append,
      if_false]
    rw [walkFlat_cons ss content (textStrsList rest) st hb]
    simp only [foundEnd] at ih ⊢
    simpa using ih
  | case5 st hstop cs rest ih =>
    rw [walk.eq_def]
    simp only [hstop, Bool.not_eq_true, textStrsList, textStrs]
    rw [← textStrsList_append]
    simpa using ih

theorem walk_stop (ss : SerializedSelection) (stack : List DNode) (st : WalkSt)
    (h : st.stop = true) : walk ss stack st = st := by
  rw [walk.eq_def]; simp [h]

theorem walkTrace_stop (ss : SerializedSelection) (stack : List DNode) (st : WalkSt)
    (h : st.stop = true) : walkTrace ss stack st = [] := by
  rw [walkTrace.eq_def]; simp [h]

theorem textStep_charIndex (ss : SerializedSelection) (content : String) (st : WalkSt) :
    (textStep ss content st).charIndex = st.charIndex + content.length := by
  simp [textStep]

theorem traceTextLen_nil : traceTextLen [] = 0 := rfl

/-! ### The visited-node trace is the pre-order node sequence -/

theorem walkTrace_le_preorder (ss : SerializedSelection) :
    ∀ (stack : List DNode) (st : WalkSt),
      walkTrace ss stack st <+: preorderList stack := by
  intro stack st
  induction stack, st using walkTrace.induct ss with
  | case1 stack st hstop =>
    rw [walkTrace.eq_def]
    simp [hstop]
  | case2 st hstop =>
    rw [walkTrace.eq_def]
    simp [hstop, preorderList]
  | case3 st hstop content rest ih =>
    rw [walkTrace.eq_def]
    simp only [hstop, Bool.not_eq_true, if_false, preorderList, preorderNodes,
      List.nil_append]
    simpa using ih
  | case4 st hstop content rest ih =>
    rw [walkTrace.eq_def]
    simp only [hstop, Bool.not_eq_true, if_false, preorderList, preorderNodes,
      List.singleton_append]
    simp only [foundEnd] at ih ⊢
    obtain ⟨t, ht⟩ := ih
    exact ⟨t, by simp [← ht]⟩
  | case5 st hstop cs rest ih =>
    rw [walkTrace.eq_def]
    simp only [hstop, Bool.not_eq_true, if_false, preorderList, preorderNodes,
      List.cons_append]
    rw [← preorderList_append]
    obtain ⟨t, ht⟩ := ih
    exact ⟨t, by simp [← ht]⟩

theorem walkTrace_full (ss : SerializedSelection) :
    ∀ (stack : List DNode) (st : WalkSt),
      st.stop = false → (walk ss stack st).stop = false →
      walkTrace ss stack st = preorderList stack := by
  intro stack st
  induction stack, st using walkTrace.induct ss with
  | case1 stack st hstop =>
    intro h1 _
    rw [h1] at hstop
    cases hstop
  | case2 st hstop =>
    intro _ _
    rw [walkTrace.eq_def]
    simp [preorderList]
  | case3 st hstop content rest ih =>
    intro h1 h2
    rw [walk.eq_def] at h2
    simp only [h1, Bool.false_eq_true, if_false] at h2
    rw [walkTrace.eq_def]
    simp only [h1, Bool.false_eq_true, if_false, preorderList, preorderNodes,
      List.nil_append]
    exact ih h1 h2
  | case4 st hstop content rest ih =>
    intro h1 h2
    rw [walk.eq_def] at h2
    simp only [h1, Bool.false_eq_true, if_false, foundEnd, eq_self_iff_true, ite_true,
      dite_true] at h2
    simp only [foundEnd, eq_self_iff_true, ite_true, dite_true] at ih
    rw [walkTrace.eq_def]
    simp only [h1, Bool.false_eq_true, if_false, foundEnd, eq_self_iff_true, ite_true,
      dite_true, preorderList, preorderNodes, List.singleton_append]
    by_cases hs : (textStep ss content st).stop = true
    · rw [walk_stop ss rest _ hs] at h2
      rw [hs] at h2
      cases h2
    · have hs' : (textStep ss content st).stop = false := by simpa using hs
      rw [ih hs' h2]
  | case5 st hstop cs rest ih =>
    intro h1 h2
    rw [walk.eq_def] at h2
    simp only [h1, Bool.false_eq_true, if_false] at h2
    rw [walkTrace.eq_def]
    simp only [h1, Bool.false_eq_true, if_false, preorderList, preorderNodes,
      List.cons_append]
    rw [← preorderList_append]
    rw [ih h1 h2]

theorem walk_charIndex_trace (ss : SerializedSelection) :
    ∀ (stack : List DNode) (st : WalkSt),
      st.stop = false →
      (walk ss stack st).charIndex = st.charIndex + traceTextLen (walkTrace ss stack st) := by
  intro stack st
  induction stack, st using walkTrace.induct ss with
  | case1 stack st hstop =>
    intro h1
    rw [h1] at hstop
    cases hstop
  | case2 st hstop =>
    intro h1
    rw [walk.eq_def, walkTrace.eq_def]
    simp [h1, traceTextLen]
  | case3 st hstop content rest ih =>
    intro h1
    rw [walk.eq_def, walkTrace.eq_def]
    simp only [h1, Bool.false_eq_true, if_false, traceTextLen]
    exact ih h1
  | case4 st hstop content rest ih =>
    intro h1
    rw [walk.eq_def, walkTrace.eq_def]
    simp only [h1, Bool.false_eq_true, if_false, foundEnd, eq_self_iff_true, ite_true,
      dite_true, traceTextLen]
    simp only [foundEnd, eq_self_iff_true, ite_true, dite_true] at ih
    by_cases hs : (textStep ss content st).stop = true
    · rw [walk_stop ss rest _ hs, walkTrace_stop ss rest _ hs]
      rw [textStep_charIndex]
      rw [traceTextLen_nil]
      omega
    · have hs' : (textStep ss content st).stop = false := by simpa using hs
      rw [ih hs', textStep_charIndex]
      omega
  | case5 st hstop cs rest ih =>
    intro h1
    rw [walk.eq_def, walkTrace.eq_def]
    simp only [h1, Bool.false_eq_true, if_false, traceTextLen]
    exact ih h1

/-! ### Export and import, characterized -/

theorem rangeSetEnd_fromRootContents (b : Bp) :
    rangeSetEnd selectNodeContentsRoot b = { s := Bp.rootStart, e := b } := by
  simp [rangeSetEnd, selectNodeContentsRoot, bpLt_b_rootStart]

theorem exportSelection_eq (root : DNode) (selv : Sel) (r : Range) (rs : List Range)
    (h : selv.ranges = r :: rs) :
    exportSelection (some root) (some selv) =
      some { start := bpGlobal (textStrs root) r.s,
             «end» := bpGlobal (textStrs root) r.s + rangeStringLength (textStrs root) r,
             startContainer := some r.s, endContainer := some r.e,
             collapsed := rangeCollapsed r } := by
  simp [exportSelection, h, rangeSetEnd_fromRootContents, rangeStringLength, bpGlobal]

theorem importWalk_eq_flat (root : DNode) (ss : SerializedSelection) :
    importWalk root ss = walkFlat ss (textStrs root) initSt := by
  rw [importWalk, walk_eq_walkFlat, textStrsList_singleton]

theorem rangeSetStart_init (k o : Nat) :
    rangeSetStart { s := Bp.rootStart, e := Bp.rootStart } (Bp.inText k o) =
      { s := Bp.inText k o, e := Bp.inText k o } := by
  simp [rangeSetStart, bpLt]

theorem rangeSetEnd_noCross (i oS j oE : Nat) (h : i < j ∨ (i = j ∧ oS ≤ oE)) :
    rangeSetEnd { s := Bp.inText i oS, e := Bp.inText i oS } (Bp.inText j oE) =
      { s := Bp.inText i oS, e := Bp.inText j oE } := by
  have hlt : bpLt (Bp.inText j oE) (Bp.inText i oS) = false := by
    simp [bpLt]; omega
  simp [rangeSetEnd, hlt]

/-- When the snapshot's offsets both fit inside the root's text, the import
walk produces exactly the range from the text node and local offset
containing `start` to those containing `end`. -/
theorem importRange_located (root : DNode) (ss : SerializedSelection)
    (hts : textStrs root ≠ [])
    (hse : ss.start ≤ ss.«end»)
    (hle : ss.«end» ≤ totalTextLength root) :
    ∃ i offS j offE,
      (importWalk root ss).range = { s := Bp.inText i offS, e := Bp.inText j offE } ∧
      bpValid (textStrs root) (Bp.inText i offS) = true ∧
      bpValid (textStrs root) (Bp.inText j offE) = true ∧
      bpGlobal (textStrs root) (Bp.inText i offS) = ss.start ∧
      bpGlobal (textStrs root) (Bp.inText j offE) = ss.«end» ∧
      (ss.start = ss.«end» → i = j ∧ offS = offE) := by
  have hstart := walkFlat_startPhase ss (textStrs root) initSt rfl rfl
    (by simp [initSt]) hse (by simp [initSt]; exact le_trans hse hle) hts
  obtain ⟨i, offS, hi, hoffS, heqS, himp1, _⟩ := hstart
  obtain ⟨j, offE, hj, hij, hoffE, heqE, hrange, _, hcoll⟩ :=
    himp1 (by simp [initSt]; exact hle)
  simp only [initSt] at heqS heqE
  rw [importWalk_eq_flat]
  have hord : i < j ∨ (i = j ∧ offS ≤ offE) := by
    rcases Nat.lt_or_ge i j with h | h
    · exact Or.inl h
    · have : i = j := by omega
      subst this
      right
      constructor
      · rfl
      · omega
  refine ⟨i, offS, j, offE, ?_, ?_, ?_, ?_, ?_, ?_⟩
  · rw [hrange]
    simp only [initSt, Nat.zero_add]
    rw [rangeSetStart_init, rangeSetEnd_noCross i offS j offE hord]
  · simp only [bpValid, Bool.and_eq_true, decide_eq_true_eq]
    exact ⟨hi, hoffS⟩
  · simp only [bpValid, Bool.and_eq_true, decide_eq_true_eq]
    exact ⟨hj, hoffE⟩
  · simp [bpGlobal]; omega
  · simp [bpGlobal]; omega
  · intro hse2
    obtain ⟨hji, hoe⟩ := hcoll hse2
    exact ⟨hji.symm, hoe.symm⟩

/-- When the snapshot's `end` exceeds the root's total text length but the
`start` still fits, the walk applies only the start boundary: by the DOM
`setStart` collapse rule the resulting range is collapsed at the start
position, and the walk runs to exhaustion without stopping. -/
theorem importRange_startOnly (root : DNode) (ss : SerializedSelection)
    (hts : textStrs root ≠ [])
    (hsle : ss.start ≤ totalTextLength root)
    (hgt : totalTextLength root < ss.«end») :
    ∃ i offS,
      (importWalk root ss).range =
        { s := Bp.inText i offS, e := Bp.inText i offS } ∧
      bpValid (textStrs root) (Bp.inText i offS) = true ∧
      bpGlobal (textStrs root) (Bp.inText i offS) = ss.start ∧
      (importWalk root ss).stop = false ∧
      (importWalk root ss).foundStart = true := by
  have hstart := walkFlat_startPhase ss (textStrs root) initSt rfl rfl
    (by simp [initSt]) (by omega) (by simp [initSt]; exact hsle) hts
  obtain ⟨i, offS, hi, hoffS, heqS, _, himp2⟩ := hstart
  obtain ⟨hrange, hstop, hfound⟩ := himp2 (by simp [initSt]; exact hgt)
  simp only [initSt] at heqS
  rw [importWalk_eq_flat]
  refine ⟨i, offS, ?_, ?_, ?_, hstop, hfound⟩
  · rw [hrange]
    simp only [initSt, Nat.zero_add]
    rw [rangeSetStart_init]
  · simp only [bpValid, Bool.and_eq_true, decide_eq_true_eq]
    exact ⟨hi, hoffS⟩
  · simp [bpGlobal]; omega

theorem importSelection_some (root : DNode) (ss : SerializedSelection) (selv : Sel) :
    importSelection (some root) (some ss) (some selv) =
      (true, some { ranges := [(importWalk root ss).range] }) := by
  simp [importSelection, selectRange]

theorem bpGlobal_of_nil (b : Bp) (hb : bpValid [] b = true) : bpGlobal [] b = 0 := by
  cases b with
  | rootStart => rfl
  | rootEnd => rfl
  | inText k o => simp [bpValid] at hb

/-! ### Claim theorems -/

/-- C2: during the import walk, at every text node visited with running
counter `charIndex` and `nodeEnd = charIndex + textLength`, the start
boundary is set at local offset `start - charIndex` and marked found when
not yet found and `charIndex ≤ start ≤ nodeEnd`; the end boundary is set at
local offset `end - charIndex` and the walk stopped when the start is found
and `charIndex ≤ end ≤ nodeEnd`; both comparisons are `≤` on both ends, so
they also fire when `nodeEnd = charIndex` (zero-length text nodes); the
counter then advances to `nodeEnd`. -/
theorem c2_text_node_step (ss : SerializedSelection) (content : String) (st : WalkSt)
    (hse : ss.start ≤ ss.«end») :
    ((st.foundStart = false ∧ st.charIndex ≤ ss.start ∧
        ss.start ≤ st.charIndex + content.length) →
      (textStep ss content st).range.s = Bp.inText st.tIdx (ss.start - st.charIndex) ∧
      (textStep ss content st).foundStart = true) ∧
    (((st.foundStart = true ∨
        (st.charIndex ≤ ss.start ∧ ss.start ≤ st.charIndex + content.length)) ∧
        st.charIndex ≤ ss.«end» ∧ ss.«end» ≤ st.charIndex + content.length) →
      (textStep ss content st).range.e = Bp.inText st.tIdx (ss.«end» - st.charIndex) ∧
      (textStep ss content st).stop = true) ∧
    (textStep ss content st).charIndex = st.charIndex + content.length := by
  refine ⟨?_, ?_, textStep_charIndex ss content st⟩
  · rintro ⟨hf, hs1, hs2⟩
    by_cases he : st.charIndex ≤ ss.«end» ∧ ss.«end» ≤ st.charIndex + content.length
    · rw [textStep_start_end ss content st hf ⟨hs1, hs2⟩ he]
      have hlt : bpLt (Bp.inText st.tIdx (ss.«end» - st.charIndex))
          (Bp.inText st.tIdx (ss.start - st.charIndex)) = false := by
        simp [bpLt]; omega
      simp [rangeSetEnd, rangeSetStart, hlt]
    · rw [textStep_start_only ss content st hf ⟨hs1, hs2⟩ he]
      simp [rangeSetStart]
  · rintro ⟨hf12, he1, he2⟩
    by_cases hf : st.foundStart = true
    · rw [textStep_found_end ss content st hf ⟨he1, he2⟩]
      simp [rangeSetEnd]
    · have hf' : st.foundStart = false := by simpa using hf
      have hs : st.charIndex ≤ ss.start ∧ ss.start ≤ st.charIndex + content.length := by
        rcases hf12 with h | h
        · exact absurd h hf
        · exact h
      rw [textStep_start_end ss content st hf' hs ⟨he1, he2⟩]
      simp [rangeSetEnd]

/-- C2 witness: a concrete state in which both clauses fire, including the
zero-length text node case `nodeEnd = charIndex`. -/
theorem c2_text_node_step_witness :
    (stAt5.foundStart = false ∧ 5 ≤ 5 ∧ 5 ≤ 5 + ("" : String).length) ∧
    (textStep ssK5 "" stAt5).range.s = Bp.inText 2 0 ∧
    (textStep ssK5 "" stAt5).stop = true := by
  have h := c2_text_node_step ssK5 "" stAt5 (by decide)
  refine ⟨⟨rfl, by decide, by decide⟩, ?_, ?_⟩
  · exact (h.1 ⟨rfl, by decide, by decide⟩).1
  · exact (h.2.1 ⟨Or.inr ⟨by decide, by decide⟩, by decide, by decide⟩).2

/-- C4 counterexample: with `start` beyond the total text length, no start
boundary is located (`foundStart` stays `false`, the range stays collapsed
at `(root, 0)`), yet `importSelection` still returns `true` — refuting
"returns true if and only if a start boundary was located". -/
theorem c4_counterexample :
    (importSelection (some root11) (some ssBeyond) (some selAny)).fst = true ∧
    (importWalk root11 ssBeyond).foundStart = false ∧
    (importWalk root11 ssBeyond).range = { s := Bp.rootStart, e := Bp.rootStart } := by
  have h1 : ("Hello " : String).length = 6 := rfl
  have h2 : ("World" : String).length = 5 := rfl
  refine ⟨by simp [importSelection], ?_, ?_⟩ <;>
    simp [importWalk, root11, initSt, walk.eq_def, textStep, ssBeyond, foundEnd, h1, h2]

/-- C4 amended: `importSelection` returns `false` exactly when the snapshot
or the root is missing (or, in the exception-aware model, a platform call
throws); with both present it returns `true` unconditionally — whether or
not a start boundary was located. -/
theorem c4_result_iff_inputs (root0 : Option DNode) (ss0 : Option SerializedSelection)
    (sel : Option Sel) :
    ((importSelection root0 ss0 sel).fst = true ↔ root0.isSome ∧ ss0.isSome) ∧
    (root0 = none → importSelection root0 ss0 sel = (false, sel)) ∧
    (ss0 = none → importSelection root0 ss0 sel = (false, sel)) := by
  cases root0 <;> cases ss0 <;> simp [importSelection]

/-- C4 amended witness: concrete instances of all three conjuncts. -/
theorem c4_result_iff_inputs_witness :
    (importSelection (some root11) (some ssHello) (some selAny)).fst = true ∧
    importSelection none (some ssHello) (some selAny) = (false, some selAny) := by
  refine ⟨?_, ?_⟩
  · exact (c4_result_iff_inputs (some root11) (some ssHello) (some selAny)).1.mpr
      (by constructor <;> rfl)
  · exact (c4_result_iff_inputs none (some ssHello) (some selAny)).2.1 rfl

/-- C5: the exported snapshot's `start` is the textual length of the clone
range that runs from the beginning of the root's content to the real range's
start (the clone built by `selectNodeContents` + `setEnd` is exactly that
range), `end` is `start` plus the length of the real range's own serialized
text, and `collapsed` is the real range's collapsed flag. -/
theorem c5_export_computation (root : DNode) (selv : Sel) (r : Range) (rs : List Range)
    (hsel : selv.ranges = r :: rs) :
    rangeSetEnd selectNodeContentsRoot r.s = { s := Bp.rootStart, e := r.s } ∧
    ∃ snap,
      exportSelection (some root) (some selv) = some snap ∧
      snap.start = rangeStringLength (textStrs root) { s := Bp.rootStart, e := r.s } ∧
      snap.«end» = snap.start + rangeStringLength (textStrs root) r ∧
      snap.collapsed = rangeCollapsed r := by
  refine ⟨rangeSetEnd_fromRootContents r.s, _, exportSelection_eq root selv r rs hsel, ?_, rfl, rfl⟩
  simp [rangeStringLength, bpGlobal]

/-- C5 witness. -/
theorem c5_export_computation_witness :
    ∃ snap,
      exportSelection (some root11) (some selLive) = some snap ∧
      snap.start = rangeStringLength (textStrs root11)
        { s := Bp.rootStart, e := Bp.inText 0 3 } ∧
      snap.«end» = snap.start + rangeStringLength (textStrs root11)
        { s := Bp.inText 0 3, e := Bp.inText 1 3 } ∧
      snap.collapsed = rangeCollapsed { s := Bp.inText 0 3, e := Bp.inText 1 3 } :=
  (c5_export_computation root11 selLive
    { s := Bp.inText 0 3, e := Bp.inText 1 3 } [] rfl).2

/-- C6 counterexample: a zero-width live range whose boundary points differ
(end of the first text node, start of the second) exports `start = end = 6`
with `collapsed = false`, refuting "collapsed iff start == end". -/
theorem c6_counterexample :
    ∃ snap, exportSelection (some root11) (some selAdjacent) = some snap ∧
      snap.start = snap.«end» ∧ snap.collapsed = false :=
  ⟨_, rfl, rfl, rfl⟩

/-- C6 amended: every exported snapshot satisfies `start ≤ end`, and
`collapsed` is the boundary-point equality of the live range — which forces
`start = end` but is not implied by it (adjacent-node zero-width ranges
export equal offsets with `collapsed = false`). -/
theorem c6_export_invariants (root : DNode) (selv : Sel) (r : Range) (rs : List Range)
    (hsel : selv.ranges = r :: rs) :
    ∃ snap,
      exportSelection (some root) (some selv) = some snap ∧
      snap.start ≤ snap.«end» ∧
      (snap.collapsed = true ↔ r.s = r.e) ∧
      (r.s = r.e → snap.start = snap.«end») := by
  refine ⟨_, exportSelection_eq root selv r rs hsel, ?_, ?_, ?_⟩
  · simp
  · simp [rangeCollapsed]
  · intro h
    simp [rangeStringLength, h]

/-- C6 amended witness. -/
theorem c6_export_invariants_witness :
    ∃ snap,
      exportSelection (some root11) (some selAdjacent) = some snap ∧
      snap.start ≤ snap.«end» ∧
      (snap.collapsed = true ↔
        (Bp.inText 0 6 : Bp) = Bp.inText 1 0) ∧
      ((Bp.inText 0 6 : Bp) = Bp.inText 1 0 → snap.start = snap.«end») :=
  c6_export_invariants root11 selAdjacent
    { s := Bp.inText 0 6, e := Bp.inText 1 0 } [] rfl

/-- C10: the behaviour of `importSelection` — its boolean result and the
selection it applies — depends only on the snapshot's `start` and `end`
fields; the `collapsed` flag and the container hints are never read. -/
theorem c10_offsets_only (root : DNode) (ss1 ss2 : SerializedSelection) (sel : Option Sel)
    (h1 : ss1.start = ss2.start) (h2 : ss1.«end» = ss2.«end») :
    importSelection (some root) (some ss1) sel = importSelection (some root) (some ss2) sel := by
  have hstep : ∀ (content : String) (st : WalkSt),
      textStep ss1 content st = textStep ss2 content st := by
    intro content st
    simp [textStep, h1, h2]
  have hwalk : ∀ (stack : List DNode) (st : WalkSt),
      walk ss1 stack st = walk ss2 stack st := by
    intro stack st
    induction stack, st using walk.induct ss1 with
    | case1 stack st hstop =>
      rw [walk.eq_def, walk.eq_def]
      simp [hstop]
    | case2 st hstop =>
      rw [walk.eq_def, walk.eq_def]
    | case3 st hstop content rest ih =>
      rw [walk.eq_def, walk.eq_def]
      simp only [hstop, Bool.not_eq_true, if_false]
      simpa using ih
    | case4 st hstop content rest ih =>
      rw [walk.eq_def, walk.eq_def]
      simp only [hstop, Bool.not_eq_true, if_false, foundEnd, eq_self_iff_true, ite_true,
        dite_true] at ih ⊢
      rw [← hstep content st]
      simpa using ih
    | case5 st hstop cs rest ih =>
      rw [walk.eq_def, walk.eq_def]
      simp only [hstop, Bool.not_eq_true, if_false]
      simpa using ih
  simp [importSelection, importWalk, hwalk]

/-- C10 witness: two snapshots agreeing on offsets but differing in the
`collapsed` flag and both container hints import identically. -/
theorem c10_offsets_only_witness :
    importSelection (some root11) (some ss39plain) (some selAny) =
      importSelection (some root11) (some ss39hints) (some selAny) :=
  c10_offsets_only root11 ss39plain ss39hints (some selAny) rfl rfl

/-- C1: for any live selection within the root (with the DOM range
invariant), exporting, importing the snapshot into the unmutated root, and
exporting again produces the same `start`/`end` offsets as the first
export. -/
theorem c1_round_trip (root : DNode) (sel0 : Sel) (r : Range) (rs : List Range)
    (hsel : sel0.ranges = r :: rs)
    (hvalid : rangeValid (textStrs root) r = true) :
    ∃ snap sel1 snap2,
      exportSelection (some root) (some sel0) = some snap ∧
      importSelection (some root) (some snap) (some sel0) = (true, some sel1) ∧
      exportSelection (some root) (some sel1) = some snap2 ∧
      snap2.start = snap.start ∧ snap2.«end» = snap.«end» := by
  have hv := hvalid
  simp only [rangeValid, Bool.and_eq_true, Bool.not_eq_true'] at hv
  obtain ⟨⟨hvs, hve⟩, hord⟩ := hv
  have hmono := bpGlobal_mono (textStrs root) r.s r.e hvs hve hord
  have hEtot := bpGlobal_le_total (textStrs root) r.e hve
  have hexp := exportSelection_eq root sel0 r rs hsel
  set snap : SerializedSelection :=
    { start := bpGlobal (textStrs root) r.s,
      «end» := bpGlobal (textStrs root) r.s + rangeStringLength (textStrs root) r,
      startContainer := some r.s, endContainer := some r.e,
      collapsed := rangeCollapsed r } with hsnap
  have hs1 : snap.start = bpGlobal (textStrs root) r.s := by rw [hsnap]
  have hs2 : snap.«end» = bpGlobal (textStrs root) r.e := by
    rw [hsnap]
    simp only [rangeStringLength]
    omega
  have hb : ∃ bs be, (importWalk root snap).range = { s := bs, e := be } ∧
      bpGlobal (textStrs root) bs = snap.start ∧
      bpGlobal (textStrs root) be = snap.«end» := by
    by_cases hts0 : textStrs root = []
    · have hiw : importWalk root snap = initSt := by
        rw [importWalk_eq_flat, hts0]
        exact walkFlat_nil _ _
      rw [hts0] at hvs hve
      refine ⟨Bp.rootStart, Bp.rootStart, by rw [hiw]; rfl, ?_, ?_⟩
      · rw [hs1, hts0, bpGlobal_of_nil r.s hvs]
        rfl
      · rw [hs2, hts0, bpGlobal_of_nil r.e hve]
        rfl
    · obtain ⟨i, offS, j, offE, hr, _, _, hgS', hgE', _⟩ :=
        importRange_located root snap hts0
          (by rw [hs1, hs2]; exact hmono)
          (by rw [hs2]; exact hEtot)
      exact ⟨_, _, hr, hgS', hgE'⟩
  obtain ⟨bs, be, hr, hbs, hbe⟩ := hb
  refine ⟨snap, { ranges := [{ s := bs, e := be }] }, _, hexp, ?_,
    exportSelection_eq root _ { s := bs, e := be } [] rfl, ?_, ?_⟩
  · rw [importSelection_some root snap sel0, hr]
  · exact hbs
  · show bpGlobal (textStrs root) bs +
      rangeStringLength (textStrs root) { s := bs, e := be } = snap.«end»
    simp only [rangeStringLength]
    have h1 : bpGlobal (textStrs root) bs ≤ bpGlobal (textStrs root) be := by
      rw [hbs, hbe, hs1, hs2]
      exact hmono
    omega

/-- C1 witness: the multi-node live range "lo Wor" in `root11`. -/
theorem c1_round_trip_witness :
    ∃ snap sel1 snap2,
      exportSelection (some root11) (some selLive) = some snap ∧
      importSelection (some root11) (some snap) (some selLive) = (true, some sel1) ∧
      exportSelection (some root11) (some sel1) = some snap2 ∧
      snap2.start = snap.start ∧ snap2.«end» = snap.«end» :=
  c1_round_trip root11 selLive { s := Bp.inText 0 3, e := Bp.inText 1 3 } [] rfl (by decide)

/-- C9: importing a collapsed snapshot at any offset `k ≤ totalTextLength`
yields a live selection collapsed at that point: a single range with equal
boundary points whose re-export gives `start = end = k` and
`collapsed = true`. -/
theorem c9_collapsed_preserved (root : DNode) (k : Nat) (sel0 : Sel)
    (sc ec : Option Bp) (col : Bool)
    (hk : k ≤ totalTextLength root) :
    ∃ bp snap2,
      importSelection (some root) (some ⟨k, k, sc, ec, col⟩) (some sel0) =
        (true, some { ranges := [{ s := bp, e := bp }] }) ∧
      exportSelection (some root) (some { ranges := [{ s := bp, e := bp }] }) = some snap2 ∧
      snap2.start = k ∧ snap2.«end» = k ∧ snap2.collapsed = true := by
  by_cases hts0 : textStrs root = []
  · have h0 : totalTextLength root = 0 := by
      simp [totalTextLength, hts0, sumLens]
    have hk0 : k = 0 := by omega
    have hiw : importWalk root ⟨k, k, sc, ec, col⟩ = initSt := by
      rw [importWalk_eq_flat, hts0]
      exact walkFlat_nil _ _
    refine ⟨Bp.rootStart, _, ?_,
      exportSelection_eq root _ { s := Bp.rootStart, e := Bp.rootStart } [] rfl,
      ?_, ?_, ?_⟩
    · rw [importSelection_some root _ sel0, hiw]
      rfl
    · rw [hk0]
      rfl
    · rw [hk0]
      rfl
    · rfl
  · obtain ⟨i, offS, j, offE, hr, _, _, hgS, hgE, hcoll⟩ :=
      importRange_located root ⟨k, k, sc, ec, col⟩ hts0 (le_refl k) hk
    obtain ⟨hij, hoffeq⟩ := hcoll rfl
    subst hij
    subst hoffeq
    have hgSk : bpGlobal (textStrs root) (Bp.inText i offS) = k := hgS
    refine ⟨Bp.inText i offS, _, ?_,
      exportSelection_eq root _ { s := Bp.inText i offS, e := Bp.inText i offS } [] rfl,
      ?_, ?_, ?_⟩
    · rw [importSelection_some root _ sel0, hr]
    · exact hgSk
    · show bpGlobal (textStrs root) (Bp.inText i offS) +
        rangeStringLength (textStrs root) { s := Bp.inText i offS, e := Bp.inText i offS } = k
      simp only [rangeStringLength]
      omega
    · show rangeCollapsed { s := Bp.inText i offS, e := Bp.inText i offS } = true
      simp [rangeCollapsed]

/-- C9 witness: the collapsed cursor at offset 6 of `root11`. -/
theorem c9_collapsed_preserved_witness :
    ∃ bp snap2,
      importSelection (some root11) (some ⟨6, 6, none, none, true⟩) (some selAny) =
        (true, some { ranges := [{ s := bp, e := bp }] }) ∧
      exportSelection (some root11) (some { ranges := [{ s := bp, e := bp }] }) = some snap2 ∧
      snap2.start = 6 ∧ snap2.«end» = 6 ∧ snap2.collapsed = true :=
  c9_collapsed_preserved root11 6 selAny none none true (by decide)

/-- C3 counterexample: against `root11` (11 characters of text), the
snapshot `{start := 0, end := 999}` returns `true` and never throws, but the
resulting live selection is collapsed at the start of the content: a second
export yields `start = end = 0`, so the selection does NOT cover up through
the last available character (total length 11 ≠ 0). -/
theorem c3_counterexample :
    importSelection (some root11) (some ssOverlong) (some selAny) =
      (true, some { ranges := [{ s := Bp.inText 0 0, e := Bp.inText 0 0 }] }) ∧
    exportSelection (some root11)
        (some { ranges := [{ s := Bp.inText 0 0, e := Bp.inText 0 0 }] }) =
      some ⟨0, 0, some (Bp.inText 0 0), some (Bp.inText 0 0), true⟩ ∧
    totalTextLength root11 = 11 ∧ (0 : Nat) ≠ 11 := by
  have h1 : ("Hello " : String).length = 6 := rfl
  have h2 : ("World" : String).length = 5 := rfl
  refine ⟨?_, rfl, rfl, by decide⟩
  rw [importSelection_some root11 ssOverlong selAny]
  have : (importWalk root11 ssOverlong).range =
      { s := Bp.inText 0 0, e := Bp.inText 0 0 } := by
    simp [importWalk, root11, initSt, walk.eq_def, textStep, ssOverlong, foundEnd, h1, h2,
      rangeSetStart, bpLt]
  rw [this]

/-- C3 amended: when the snapshot's `end` exceeds the total text length (and
`start` does not), `importSelection` still returns `true` and applies the
start boundary it found, but it does not clamp the end: the end condition
never matches, so the applied range stays collapsed at the start offset
rather than extending to the end of the content; nothing throws. -/
theorem c3_overlong_end_collapses (root : DNode) (ss : SerializedSelection) (sel0 : Sel)
    (hts : textStrs root ≠ [])
    (hsle : ss.start ≤ totalTextLength root)
    (hgt : totalTextLength root < ss.«end») :
    ∃ bp,
      importSelection (some root) (some ss) (some sel0) =
        (true, some { ranges := [{ s := bp, e := bp }] }) ∧
      bpGlobal (textStrs root) bp = ss.start := by
  obtain ⟨i, offS, hr, _, hg, _, _⟩ := importRange_startOnly root ss hts hsle hgt
  refine ⟨Bp.inText i offS, ?_, hg⟩
  rw [importSelection_some root ss sel0, hr]

/-- C3 amended witness. -/
theorem c3_overlong_end_collapses_witness :
    ∃ bp,
      importSelection (some root11) (some ssOverlong) (some selAny) =
        (true, some { ranges := [{ s := bp, e := bp }] }) ∧
      bpGlobal (textStrs root11) bp = ssOverlong.start :=
  c3_overlong_end_collapses root11 ssOverlong selAny (by decide) (by decide) (by decide)

/-- C7: the import walk processes exactly the element and text nodes of the
root's subtree that a depth-first pre-order traversal in document order
visits — a prefix of that sequence in general (the walk can stop early when
the end boundary is found), the full sequence whenever the walk is not
stopped — and the character counter is the sum of the text lengths of the
visited text nodes only: elements and skipped node types (comments)
contribute nothing. -/
theorem c7_walk_visits_preorder (root : DNode) (ss : SerializedSelection) :
    walkTrace ss [root] initSt <+: preorderNodes root ∧
    ((importWalk root ss).stop = false → walkTrace ss [root] initSt = preorderNodes root) ∧
    (importWalk root ss).charIndex = traceTextLen (walkTrace ss [root] initSt) := by
  refine ⟨?_, ?_, ?_⟩
  · have h := walkTrace_le_preorder ss [root] initSt
    rwa [preorderList_singleton] at h
  · intro h
    have h2 := walkTrace_full ss [root] initSt rfl h
    rwa [preorderList_singleton] at h2
  · have h := walk_charIndex_trace ss [root] initSt rfl
    simpa [importWalk, initSt] using h

/-- C7 witness: with an unsatisfiable start offset the walk never stops and
the trace is the whole pre-order sequence of `root11`, comment excluded. -/
theorem c7_walk_visits_preorder_witness :
    walkTrace ssBeyond [root11] initSt = preorderNodes root11 ∧
    (importWalk root11 ssBeyond).charIndex = 11 := by
  have h1 : ("Hello " : String).length = 6 := rfl
  have h2 : ("World" : String).length = 5 := rfl
  have hstop : (importWalk root11 ssBeyond).stop = false := by
    simp [importWalk, root11, initSt, walk.eq_def, textStep, ssBeyond, foundEnd, h1, h2]
  refine ⟨(c7_walk_visits_preorder root11 ssBeyond).2.1 hstop, ?_⟩
  rw [(c7_walk_visits_preorder root11 ssBeyond).2.2,
    (c7_walk_visits_preorder root11 ssBeyond).2.1 hstop]
  rfl

/-- C8 counterexample: when `selection.addRange` throws, `importSelection`
does return `false` without propagating, but the live selection is NOT left
unchanged: `selectRange` has already executed `removeAllRanges()`, so the
previous ranges are gone and the selection ends up empty. -/
theorem c8_counterexample :
    importSelectionExc envAddRangeFails (some root11) (some ssHello) (some selAny) =
      (false, some { ranges := [] }) ∧
    (some { ranges := [] } : Option Sel) ≠ some selAny := by
  have h1 : ("Hello " : String).length = 6 := rfl
  have h2 : ("World" : String).length = 5 := rfl
  constructor
  · simp [importSelectionExc, envAddRangeFails, walkE.eq_def, textStepE, root11, initSt,
      ssHello, foundEnd, h1, h2, rangeSetStart, rangeSetEnd, bpLt]
  · decide

/-- C8 amended: every platform-call exception inside `importSelection` is
caught (the function totally returns a boolean) and yields `false`; if the
exception occurs before `selectRange` mutates the selection the live
selection is unchanged, but if `addRange` itself throws the selection has
already been cleared by `removeAllRanges` — a partial mutation. -/
theorem c8_failures_caught (env : ExcEnv) (root : DNode) (ss : SerializedSelection) (sel0 : Sel)
    (hfail : (importSelectionExc env (some root) (some ss) (some sel0)).fst = false) :
    (importSelectionExc env (some root) (some ss) (some sel0)).snd = some sel0 ∨
      (env.fails PSite.addRange = true ∧
        (importSelectionExc env (some root) (some ss) (some sel0)).snd =
          some { ranges := [] }) := by
  by_cases h1 : env.fails PSite.initRange
  · left
    simp [importSelectionExc, h1]
  · cases hw : walkE env ss [root] initSt with
    | error u =>
      left
      simp [importSelectionExc, h1, hw]
    | ok st =>
      by_cases h2 : env.fails PSite.removeAllRanges
      · left
        simp [importSelectionExc, h1, hw, h2]
      · by_cases h3 : env.fails PSite.addRange
        · right
          refine ⟨h3, ?_⟩
          simp [importSelectionExc, h1, hw, h2, h3]
        · exfalso
          rw [importSelectionExc] at hfail
          simp [h1, hw, h2, h3] at hfail

/-- C8 amended witness: the `addRange`-throwing environment. -/
theorem c8_failures_caught_witness :
    (importSelectionExc envAddRangeFails (some root11) (some ssHello) (some selAny)).snd =
        some selAny ∨
      (envAddRangeFails.fails PSite.addRange = true ∧
        (importSelectionExc envAddRangeFails (some root11) (some ssHello) (some selAny)).snd =
          some { ranges := [] }) := by
  have h1 : ("Hello " : String).length = 6 := rfl
  have h2 : ("World" : String).length = 5 := rfl
  exact c8_failures_caught envAddRangeFails root11 ssHello selAny
    (by simp [importSelectionExc, envAddRangeFails, walkE.eq_def, textStepE, root11, initSt,
      ssHello, foundEnd, h1, h2, rangeSetStart, rangeSetEnd, bpLt])

end RichText
